import Mathlib

/-!
Shallow embedding of the queue-statistics core of `ethq` (src/ethq.cc):
the counter-name scanner and queue-map builder `EthQApp::build_queue_map`,
the projection `EthQApp::get_stats`, the per-tick delta computation
`EthQApp::get_deltas`, and the startup logic of `EthQApp::handleArgs` and
`main`.  Machine integers are modelled as `Nat` / `Int` with explicit
reduction mod 2^64 where C++ unsigned arithmetic wraps.  C++ operations
that can fail — a thrown exception, or an out-of-bounds `std::vector`
access through unchecked `operator[]` — are modelled totally, with
`Option` / `Except`; `none` / `.error` marks the failure.
-/

namespace EthQ

/-- 2^64, the modulus of C++ `size_t` / `uint64_t` arithmetic. -/
def U64 : Nat := 2 ^ 64

/-- Conversion of an `int` value to C++ `size_t` (reduction mod 2^64,
as in `size_t queue = std::stoi(...)` at src/ethq.cc:93). -/
def toSizeT (v : Int) : Nat := (v % (U64 : Int)).toNat

/-- `std::isspace` in the default locale: values 9..13 and 32. -/
def isSpaceCh (c : Char) : Bool := c.toNat = 32 || (9 ≤ c.toNat && c.toNat ≤ 13)

/-- decimal digit, `'0'` (48) .. `'9'` (57) -/
def isDigitCh (c : Char) : Bool := 48 ≤ c.toNat && c.toNat ≤ 57

/-- numeric value of a digit run, most significant digit first -/
def digitsToNat (l : List Char) : Nat := l.foldl (fun a c => 10 * a + (c.toNat - 48)) 0

/-- optional sign recognised by `strtol`: (sign, characters consumed) -/
def signOf (l : List Char) : Int × Nat :=
  match l with
  | c :: _ => if c = '-' then (-1, 1) else if c = '+' then (1, 1) else (1, 0)
  | [] => (1, 0)

/-- `std::stoi(s, &pos)` (src/ethq.cc:93): skips leading whitespace, an
optional sign, then a nonempty digit run; returns the value and `pos`
(index one past the last consumed character).  `none` models a thrown
exception: `std::invalid_argument` when no digit is found,
`std::out_of_range` when the value does not fit in a 32-bit `int`. -/
def stoi (s : List Char) : Option (Int × Nat) :=
  let ws := (s.takeWhile isSpaceCh).length
  let rest := s.drop ws
  let sp := signOf rest
  let digits := (rest.drop sp.2).takeWhile isDigitCh
  if digits.length = 0 then none
  else
    let v : Int := sp.1 * (digitsToNat digits : Int)
    if v < -(2 ^ 31 : Int) ∨ (2 ^ 31 : Int) - 1 < v then none
    else some (v, ws + sp.2 + digits.length)

/-- `name.find("rx-") == 0` (src/ethq.cc:84) -/
def startsRx (name : List Char) : Bool :=
  match name with
  | a :: b :: c :: _ => a = 'r' && b = 'x' && c = '-'
  | _ => false

/-- `name.find("tx-") == 0` (src/ethq.cc:83) -/
def startsTx (name : List Char) : Bool :=
  match name with
  | a :: b :: c :: _ => a = 't' && b = 'x' && c = '-'
  | _ => false

/-- `s.find(c, start)`: index of the first occurrence of `c` at a
position ≥ `start`; `none` is `std::string::npos`. -/
def findIdxFrom (c : Char) (s : List Char) (start : Nat) : Option Nat :=
  match (s.drop start).findIdx? (fun d => d = c) with
  | some k => some (start + k)
  | none => none

/-- the literal `"bytes"` compared against at src/ethq.cc:106 -/
def bytesChars : List Char := ['b', 'y', 't', 'e', 's']

/-- The mutable state that `build_queue_map` accumulates: `qmap` is the
`std::map<size_t, std::pair<size_t, uint8_t>>` member (sourceIndex ↦
(queue, offset)); since source indices are inserted in strictly
increasing order, the map's key-sorted iteration order coincides with
insertion order and the map is represented as the list of entries in
that order.  `qcount` is the `size_t` member of the same name. -/
structure QState where
  qmap : List (Nat × Nat × Nat)
  qcount : Nat
deriving DecidableEq

/-- One iteration of the loop body of `EthQApp::build_queue_map`
(src/ethq.cc:78-115) on the name at source position `i`.  `some st`
with `st` unchanged is a `continue`; `none` is an exception escaping
from `std::stoi`. -/
def processName (i : Nat) (name : List Char) (st : QState) : Option QState :=
  let rx := startsRx name
  let tx := startsTx name
  if !(rx || tx) then some st
  else
    match findIdxFrom '.' name 3 with
    | none => some st
    | some dot =>
      let tmp := (name.drop 3).take (dot - 3)
      match stoi tmp with
      | none => none
      | some ve =>
        if ve.2 < tmp.length then some st
        else
          match findIdxFrom '_' name (dot + 3) with
          | none => some st
          | some under =>
            let ty := name.drop (under + 1)
            let offset : Nat := (if rx then 1 else 0) + (if ty = bytesChars then 2 else 0)
            let queue := toSizeT ve.1
            some ⟨st.qmap ++ [(i, queue, offset)], max ((queue + 1) % U64) st.qcount⟩

/-- the loop of `build_queue_map`, starting at source position `i` -/
def buildAux : Nat → List (List Char) → QState → Option QState
  | _, [], st => some st
  | i, n :: rest, st =>
    match processName i n st with
    | none => none
    | some st2 => buildAux (i + 1) rest st2

/-- `EthQApp::build_queue_map(names)` (src/ethq.cc:76-116) run on a fresh
application object (`qmap` empty, `qcount = 0`). -/
def build_queue_map (names : List (List Char)) : Option QState :=
  buildAux 0 names ⟨[], 0⟩

/-- a `queuestats_t` zero-initialized by `stats_list_t results(qcount)`:
the four `counts` slots -/
def zeroCounts : List Nat := [0, 0, 0, 0]

/-- `results[queue].counts[offset] = raw[id]` (src/ethq.cc:130) for one
`qmap` entry `e = (id, queue, offset)`.  Each unchecked `operator[]`
access is modelled totally: `none` marks an access past the end. -/
def projectEntry (raw : List Nat) (acc : List (List Nat)) (e : Nat × Nat × Nat) :
    Option (List (List Nat)) :=
  match raw[e.1]?, acc[e.2.1]? with
  | some v, some row =>
    if e.2.2 < row.length then some (acc.set e.2.1 (row.set e.2.2 v)) else none
  | _, _ => none

/-- the `for (const auto pair: qmap)` loop of `get_stats`
(src/ethq.cc:124-131); `std::map` iterates its entries in ascending key
order, which is the list order of our `qmap` representation -/
def projectLoop (raw : List Nat) (acc : List (List Nat)) :
    List (Nat × Nat × Nat) → Option (List (List Nat))
  | [] => some acc
  | e :: rest =>
    match projectEntry raw acc e with
    | none => none
    | some acc2 => projectLoop raw acc2 rest

/-- `EthQApp::get_stats()` (src/ethq.cc:118-134) with the raw counter
array `raw` returned by `ethtool->stats()`. -/
def get_stats (qmap : List (Nat × Nat × Nat)) (qcount : Nat) (raw : List Nat) :
    Option (List (List Nat)) :=
  projectLoop raw (List.replicate qcount zeroCounts) qmap

/-- `uint64_t` subtraction `c - p`: reduction of the integer difference
mod 2^64 -/
def wrapSub (c p : Nat) : Nat := (((c : Int) - (p : Int)) % (U64 : Int)).toNat

/-- reinterpretation of a `uint64_t` value as `int64_t`
(two's complement) -/
def toSigned64 (n : Nat) : Int := if n < 2 ^ 63 then (n : Int) else (n : Int) - (U64 : Int)

/-- `int64_t d = stats[i].counts[j] - prev[i].counts[j]`
(src/ethq.cc:146): the unsigned difference wraps mod 2^64 and the result
is converted to a signed 64-bit value -/
def deltaVal (c p : Nat) : Int := toSigned64 (wrapSub c p)

/-- storing an `int64_t` into a `uint64_t` slot
(`delta[i].counts[j] = d`, src/ethq.cc:147): reduction mod 2^64 -/
def storedOf (d : Int) : Nat := (d % (U64 : Int)).toNat

/-- the inner `j` loop of `get_deltas` (src/ethq.cc:145-149) for one
queue: the four stored delta slots; `none` marks an out-of-range
`counts[j]` read -/
def deltaRow (sRow pRow : List Nat) : Option (List Nat) :=
  match sRow[0]?, pRow[0]?, sRow[1]?, pRow[1]?, sRow[2]?, pRow[2]?, sRow[3]?, pRow[3]? with
  | some s0, some p0, some s1, some p1, some s2, some p2, some s3, some p3 =>
    some [storedOf (deltaVal s0 p0), storedOf (deltaVal s1 p1),
          storedOf (deltaVal s2 p2), storedOf (deltaVal s3 p3)]
  | _, _, _, _, _, _, _, _ => none

/-- the outer `i` loop of `get_deltas` (src/ethq.cc:144-150), computing
the delta rows for queues `i, i+1, ..., i+n-1`; `none` marks a read of
`stats[i]` or `prev[i]` past the end -/
def deltaRows (stats prev : List (List Nat)) : Nat → Nat → Option (List (List Nat))
  | _, 0 => some []
  | i, n + 1 =>
    match stats[i]?, prev[i]? with
    | some s, some p =>
      match deltaRow s p with
      | none => none
      | some r =>
        match deltaRows stats prev (i + 1) n with
        | none => none
        | some rest => some (r :: rest)
    | _, _ => none

/-- `total.counts[j] += d` (src/ethq.cc:148) accumulated over one queue's
stored delta row: `uint64_t` addition wraps mod 2^64 -/
def accTotals (total dRow : List Nat) : List Nat :=
  List.zipWith (fun t d => (t + d) % U64) total dRow

/-- the value-level content of `EthQApp::get_deltas()`
(src/ethq.cc:140-150): the per-queue stored delta rows and the `total`
slots, the latter zeroed first (src/ethq.cc:140-142) and then
accumulated queue by queue -/
def deltasAndTotals (qcount : Nat) (stats prev : List (List Nat)) :
    Option (List (List Nat) × List Nat) :=
  match deltaRows stats prev 0 qcount with
  | none => none
  | some rows => some (rows, rows.foldl accTotals zeroCounts)

/-- the writes `delta[i].counts[j] = d` (src/ethq.cc:147) of the computed
rows into the `delta` vector, one row per queue starting at index `i`;
`none` marks a write through `delta[i]` past the end of the vector -/
def writeRows (buf : List (List Nat)) (i : Nat) : List (List Nat) → Option (List (List Nat))
  | [] => some buf
  | r :: rest =>
    match buf[i]? with
    | none => none
    | some _ => writeRows (buf.set i r) (i + 1) rest

/-- the `delta` vector as `EthQApp::handleArgs` leaves it
(src/ethq.cc:167): `delta.reserve(qcount)` changes only the capacity, so
the vector's size is still 0 -/
def startupDelta (_qcount : Nat) : List (List Nat) := []

/-- `EthQApp::get_deltas()` (src/ethq.cc:136-153) as one tick: fetch and
project the raw counters, compute delta rows and totals, store the rows
into the `delta` buffer; returns (delta buffer, totals, new `prev` after
the swap at src/ethq.cc:152).  The row writes are sequenced after the
row computation; this does not change which inputs fail, since the
computation never reads the `delta` buffer. -/
def get_deltas (qmap : List (Nat × Nat × Nat)) (qcount : Nat) (raw : List Nat)
    (prev deltaBuf : List (List Nat)) :
    Option (List (List Nat) × List Nat × List (List Nat)) :=
  match get_stats qmap qcount raw with
  | none => none
  | some stats =>
    match deltasAndTotals qcount stats prev with
    | none => none
    | some rt =>
      match writeRows deltaBuf 0 rt.1 with
      | none => none
      | some buf => some (buf, rt.2, stats)

/-- `EXIT_FAILURE`, the status `main` returns when a `std::exception`
is caught (src/ethq.cc:262-264) -/
def EXIT_FAILURE : Nat := 1

/-- `EthQApp::handleArgs` (src/ethq.cc:155-168): usage check, building of
the queue map from the driver's counter-name list, and the
zero-queue-count check.  `.error` carries the `what()` of the thrown
exception. -/
def handleArgsModel (argc : Nat) (names : List (List Char)) : Except String QState :=
  if argc ≠ 2 then .error "usage: ethq <interface>"
  else
    match build_queue_map names with
    | none => .error "stoi"
    | some st =>
      if st.qcount = 0 then .error "No NIC queues found" else .ok st

/-- outcome of one run of `main`: the exit status and whether the
polling loop in `EthQApp::run` (src/ethq.cc:224-237) was entered -/
structure RunOutcome where
  exitCode : Nat
  loopReached : Bool
deriving DecidableEq

/-- `main` (src/ethq.cc:242-268): `handleArgs` runs before `app()`; an
exception thrown there is caught by the `std::exception` handler, which
prints the diagnostic and sets `res = EXIT_FAILURE`, so the polling loop
inside `app()` is never entered.  `loopRes` abstracts the value `app()`
returns when it does run. -/
def mainModel (argc : Nat) (names : List (List Char)) (loopRes : Nat) : RunOutcome :=
  match handleArgsModel argc names with
  | .error _ => ⟨EXIT_FAILURE, false⟩
  | .ok _ => ⟨loopRes, true⟩

/-- the queue-number field of a counter name: the text between the
`rx-`/`tx-` literal and the first `'.'` at position ≥ 3, exactly as the
scanner extracts it (src/ethq.cc:87-92); `none` when the scanner never
reaches the `std::stoi` call for this name -/
def queueField (name : List Char) : Option (List Char) :=
  if startsRx name || startsTx name then
    match findIdxFrom '.' name 3 with
    | some dot => some ((name.drop 3).take (dot - 3))
    | none => none
  else none

/-- whether the scanner's `std::stoi` call throws on this name: the
queue-number field is reached but fails integer conversion -/
def stoiFailsOn (name : List Char) : Bool :=
  match queueField name with
  | some tmp => (stoi tmp).isNone
  | none => false

/-- the counter-kind text of a name as the scanner locates it: everything
after the first `'_'` at position ≥ dot+3 (src/ethq.cc:97-99), compared
against the literal `"bytes"` -/
def isBytesKind (name : List Char) : Bool :=
  match findIdxFrom '.' name 3 with
  | none => false
  | some dot =>
    match findIdxFrom '_' name (dot + 3) with
    | none => false
    | some under => name.drop (under + 1) = bytesChars

/-- the highest source index recorded in the queue map -/
def maxSourceIndex (qmap : List (Nat × Nat × Nat)) : Nat :=
  (qmap.map (fun e => e.1)).foldl max 0

/-- the value stored at queue `q`, slot `s` of a projected stats list -/
def lookup2 (res : List (List Nat)) (q s : Nat) : Option Nat :=
  match res[q]? with
  | none => none
  | some row => row[s]?

/-- the slot offset that the spec's §4.2 formula assigns to a counter
name: direction base (`rx` ↦ 1, `tx` ↦ 0) plus kind offset (`bytes` ↦ 2,
anything else ↦ 0) -/
def slotOffset (name : List Char) : Nat :=
  (if startsRx name then 1 else 0) + (if isBytesKind name then 2 else 0)

/-- C1.  The claim asserts that with at least one discovered queue, every
write `delta[i].counts[j]` of `get_deltas` stays inside the `delta`
vector.  The code violates this: `handleArgs` only calls
`delta.reserve(qcount)` (src/ethq.cc:167), which sets capacity but
leaves the vector's size at 0, so on the very first tick the write
through `delta[0]` (src/ethq.cc:147) is past the end — modelled here as
`get_deltas` returning `none` on a one-queue interface whose map was
built from the single counter name `rx-0.rx_packets`. -/
theorem delta_write_out_of_bounds :
    build_queue_map ["rx-0.rx_packets".toList] = some ⟨[(0, 0, 1)], 1⟩ ∧
    startupDelta 1 = [] ∧
    get_stats [(0, 0, 1)] 1 [7] = some [[0, 7, 0, 0]] ∧
    get_deltas [(0, 0, 1)] 1 [7] [[0, 7, 0, 0]] (startupDelta 1) = none := by
  refine ⟨by decide, rfl, by decide, by decide⟩

/-- C2 counterexample.  On input `["rx--1.rx_bytes", "rx-5.rx_bytes"]`
both names match the scanner (`std::stoi` consumes `"-1"` in full and
the `int` value −1 converts to `size_t` as 2^64 − 1), so the maximum
queue index extracted from matched names is 2^64 − 1, yet the computed
`qcount` is 6: `queue + 1` wraps to 0 for the first name.  The claimed
equation `qcount = 1 + max` fails. -/
theorem qcount_counterexample :
    build_queue_map ["rx--1.rx_bytes".toList, "rx-5.rx_bytes".toList] =
      some ⟨[(0, U64 - 1, 3), (1, 5, 3)], 6⟩ ∧
    ((([(0, U64 - 1, 3), (1, 5, 3)] : List (Nat × Nat × Nat)).map
        (fun e => e.2.1)).foldl max 0) + 1 ≠ 6 := by
  refine ⟨by decide, by decide⟩

/-- C6 counterexample.  On the counter name `"rx-.rx_bytes"` the scanner
passes the prefix and dot checks and calls `std::stoi` on the empty
queue-number field, which throws `std::invalid_argument`
(src/ethq.cc:93); the exception escapes `build_queue_map`, so parsing
does raise an error instead of silently skipping the unmatched name. -/
theorem parse_error_counterexample :
    build_queue_map ["rx-.rx_bytes".toList] = none := by decide

/-- C7 counterexample.  The name `"rx-99999999999x.rx_bytes"` has a
queue-number field that starts with digits and has a trailing non-digit,
but the digit run's value 99999999999 does not fit in `int`, so
`std::stoi` throws `std::out_of_range` (src/ethq.cc:93) before the
full-consumption check at src/ethq.cc:94 can reject the name: the name
produces a parse error, not a silent non-match. -/
theorem trailing_junk_counterexample :
    build_queue_map ["rx-99999999999x.rx_bytes".toList] = none := by decide

/-- C8 counterexample.  With previous = 2^63 + 1 and current = 0 the
current value is below the previous one, yet the stored delta
(current − previous) mod 2^64 = 2^63 − 1 reinterprets as the positive
signed value 2^63 − 1, so the claim's "current < previous ⟹ the delta
is negative" fails for drops larger than 2^63. -/
theorem negative_delta_counterexample :
    deltasAndTotals 1 [[0, 0, 0, 0]] [[2 ^ 63 + 1, 0, 0, 0]] =
      some ([[2 ^ 63 - 1, 0, 0, 0]], [2 ^ 63 - 1, 0, 0, 0]) ∧
    (0 : Nat) < 2 ^ 63 + 1 ∧ ¬ deltaVal 0 (2 ^ 63 + 1) < 0 := by
  refine ⟨by decide, by decide, by decide⟩

/-- C5.  When the queue map built at startup discovers zero queues,
`handleArgs` throws `std::runtime_error("No NIC queues found")`
(src/ethq.cc:164-166); `main` catches it, reports it, and returns
`EXIT_FAILURE` without ever invoking `app()` — the polling loop of
`EthQApp::run` is never reached. -/
theorem zero_queues_halts (names : List (List Char)) (loopRes : Nat) (st : QState)
    (hb : build_queue_map names = some st) (h0 : st.qcount = 0) :
    handleArgsModel 2 names = .error "No NIC queues found" ∧
    mainModel 2 names loopRes = ⟨EXIT_FAILURE, false⟩ ∧ EXIT_FAILURE ≠ 0 := by
  have h1 : handleArgsModel 2 names = .error "No NIC queues found" := by
    unfold handleArgsModel
    rw [hb]
    simp [h0]
  refine ⟨h1, by unfold mainModel; rw [h1], by decide⟩

/-- witness for `zero_queues_halts`: an empty counter-name list leaves
`qcount = 0`, and the run halts with `EXIT_FAILURE` before the loop. -/
theorem zero_queues_halts_witness :
    handleArgsModel 2 [] = .error "No NIC queues found" ∧
    mainModel 2 [] 0 = ⟨EXIT_FAILURE, false⟩ ∧ EXIT_FAILURE ≠ 0 :=
  zero_queues_halts [] 0 ⟨[], 0⟩ rfl rfl

/-- a name cannot start with both `"rx-"` and `"tx-"`: the two direction
checks of the scanner are mutually exclusive -/
lemma rx_tx_exclusive (name : List Char) :
    ¬(startsRx name = true ∧ startsTx name = true) := by
  rcases name with _ | ⟨a, _ | ⟨b, _ | ⟨c, t⟩⟩⟩ <;> simp [startsRx, startsTx]
  rintro rfl - - h
  exact absurd h (by decide)

/-- Any successful iteration of the scanner loop either leaves the state
unchanged (a skipped name) or appends exactly one entry keyed by the
source position `i` and raises `qcount` to `(queue + 1) mod 2^64` if
that is larger. -/
lemma processName_shape (i : Nat) (name : List Char) (st st' : QState)
    (h : processName i name st = some st') :
    st' = st ∨ ∃ q off, st'.qmap = st.qmap ++ [(i, q, off)] ∧
      st'.qcount = max ((q + 1) % U64) st.qcount := by
  by_cases hor : (startsRx name || startsTx name) = true
  · rcases hdot : findIdxFrom '.' name 3 with _ | dot
    · simp [processName, hor, hdot] at h
      exact Or.inl h.symm
    · rcases hstoi : stoi ((name.drop 3).take (dot - 3)) with _ | ve
      · simp [processName, hor, hdot, hstoi] at h
      · by_cases hlen : ve.2 < dot - 3 ∧ ve.2 < name.length - 3
        · simp [processName, hor, hdot, hstoi, hlen] at h
          exact Or.inl h.symm
        · rcases hund : findIdxFrom '_' name (dot + 3) with _ | under
          · simp [processName, hor, hdot, hstoi, hlen, hund] at h
            exact Or.inl h.symm
          · simp [processName, hor, hdot, hstoi, hlen, hund] at h
            exact Or.inr ⟨toSizeT ve.1,
              (if startsRx name then 1 else 0) +
                (if name.drop (under + 1) = bytesChars then 2 else 0),
              by rw [← h], by rw [← h]⟩
  · simp [processName, Bool.not_eq_true _ ▸ hor] at h
    exact Or.inl h.symm

/-- C4.  Whenever the scanner accepts a counter name (a new entry is
recorded for it), the entry's slot offset equals the direction base
(1 for an `rx-`-prefixed name, 0 for a `tx-`-prefixed one — the two
prefixes being mutually exclusive) plus 2 exactly when the
counter-kind text after the underscore is `"bytes"`, and that offset is
always one of the four values 0..3. -/
theorem slot_offset_formula (i : Nat) (name : List Char) (st st' : QState)
    (h : processName i name st = some st') (hne : st' ≠ st) :
    (startsRx name || startsTx name) = true ∧
    ¬(startsRx name = true ∧ startsTx name = true) ∧
    slotOffset name < 4 ∧
    ∃ q, st'.qmap = st.qmap ++ [(i, q, slotOffset name)] := by
  by_cases hor : (startsRx name || startsTx name) = true
  · rcases hdot : findIdxFrom '.' name 3 with _ | dot
    · simp [processName, hor, hdot] at h
      exact absurd h.symm hne
    · rcases hstoi : stoi ((name.drop 3).take (dot - 3)) with _ | ve
      · simp [processName, hor, hdot, hstoi] at h
      · by_cases hlen : ve.2 < dot - 3 ∧ ve.2 < name.length - 3
        · simp [processName, hor, hdot, hstoi, hlen] at h
          exact absurd h.symm hne
        · rcases hund : findIdxFrom '_' name (dot + 3) with _ | under
          · simp [processName, hor, hdot, hstoi, hlen, hund] at h
            exact absurd h.symm hne
          · simp [processName, hor, hdot, hstoi, hlen, hund] at h
            have hbk : slotOffset name =
                (if startsRx name then 1 else 0) +
                  (if name.drop (under + 1) = bytesChars then 2 else 0) := by
              unfold slotOffset
              simp [isBytesKind, hdot, hund]
            refine ⟨hor, rx_tx_exclusive name, ?_, ⟨toSizeT ve.1, ?_⟩⟩
            · rw [hbk]
              split <;> split <;> decide
            · rw [hbk, ← h]
  · simp [processName, Bool.not_eq_true _ ▸ hor] at h
    exact absurd h.symm hne

/-- witness for `slot_offset_formula`: the name `rx-0.rx_bytes` is
accepted with slot offset 3 (= 1 for `rx` + 2 for `bytes`). -/
theorem slot_offset_formula_witness :
    (startsRx "rx-0.rx_bytes".toList || startsTx "rx-0.rx_bytes".toList) = true ∧
    ¬(startsRx "rx-0.rx_bytes".toList = true ∧ startsTx "rx-0.rx_bytes".toList = true) ∧
    slotOffset "rx-0.rx_bytes".toList < 4 ∧
    ∃ q, (⟨[(0, 0, 3)], 1⟩ : QState).qmap =
      (⟨[], 0⟩ : QState).qmap ++ [(0, q, slotOffset "rx-0.rx_bytes".toList)] :=
  slot_offset_formula 0 "rx-0.rx_bytes".toList ⟨[], 0⟩ ⟨[(0, 0, 3)], 1⟩
    (by decide) (by decide)

/-- C6 amended.  An iteration of the scanner raises an error (a thrown
exception escaping the loop) exactly when the name's queue-number field
is reached and `std::stoi` fails on it — no digits to convert, or a
value outside `int` range.  Every other name that does not match is
silently skipped (`continue`), leaving the state unchanged so that the
remaining names are still processed. -/
theorem skip_iff_stoi_error (i : Nat) (name : List Char) (st : QState) :
    processName i name st = none ↔ stoiFailsOn name = true := by
  by_cases hor : (startsRx name || startsTx name) = true
  · rcases hdot : findIdxFrom '.' name 3 with _ | dot
    · simp [processName, stoiFailsOn, queueField, hor, hdot]
    · rcases hstoi : stoi ((name.drop 3).take (dot - 3)) with _ | ve
      · simp [processName, stoiFailsOn, queueField, hor, hdot, hstoi]
      · by_cases hlen : ve.2 < dot - 3 ∧ ve.2 < name.length - 3
        · simp [processName, stoiFailsOn, queueField, hor, hdot, hstoi, hlen]
        · rcases hund : findIdxFrom '_' name (dot + 3) with _ | under <;>
            simp [processName, stoiFailsOn, queueField, hor, hdot, hstoi, hlen, hund]
  · simp [processName, stoiFailsOn, queueField, Bool.not_eq_true _ ▸ hor]

/-- a decimal digit is not whitespace and not a sign character -/
lemma digit_facts {c : Char} (h : isDigitCh c = true) :
    isSpaceCh c = false ∧ c ≠ '-' ∧ c ≠ '+' := by
  unfold isDigitCh at h
  simp at h
  refine ⟨?_, ?_, ?_⟩
  · unfold isSpaceCh
    simp
    omega
  · rintro rfl
    exact absurd h (by decide)
  · rintro rfl
    exact absurd h (by decide)

/-- evaluation of `std::stoi` on a field that starts with a digit run
whose value fits in `int`: no exception; the run is consumed in full and
its value returned together with its length as the stop position -/
lemma stoi_digit_prefix (tmp : List Char)
    (hd : tmp.takeWhile isDigitCh ≠ [])
    (hrange : digitsToNat (tmp.takeWhile isDigitCh) ≤ 2 ^ 31 - 1) :
    stoi tmp = some ((digitsToNat (tmp.takeWhile isDigitCh) : Int),
      (tmp.takeWhile isDigitCh).length) := by
  rcases tmp with _ | ⟨c, t⟩
  · simp at hd
  · have hc : isDigitCh c = true := by
      by_contra hcn
      rw [List.takeWhile_cons_of_neg hcn] at hd
      exact hd rfl
    obtain ⟨hsp, hminus, hplus⟩ := digit_facts hc
    have hsign : signOf (c :: t) = (1, 0) := by
      simp [signOf, hminus, hplus]
    have hnn : (0 : Int) ≤ (digitsToNat ((c :: t).takeWhile isDigitCh) : Int) :=
      Int.natCast_nonneg _
    have hub : (digitsToNat ((c :: t).takeWhile isDigitCh) : Int) ≤ 2 ^ 31 - 1 := by
      omega
    unfold stoi
    rw [List.takeWhile_cons_of_neg (by simp [hsp])]
    simp only [List.length_nil, List.drop_zero, hsign]
    rw [if_neg (by simpa [List.length_eq_zero] using hd)]
    rw [if_neg (by push_neg; constructor <;> omega)]
    simp

/-- C7 amended.  A counter name whose queue-number field starts with a
digit run that fits in `int` but is followed by trailing non-digit
characters is rejected as a non-match (`eon < tmp.length` at
src/ethq.cc:94): the scanner skips it, producing no entry and leaving
both the queue map and the queue count untouched.  (When the digit run
overflows `int`, `std::stoi` throws instead — see the counterexample.) -/
theorem trailing_junk_skipped (i : Nat) (name : List Char) (st : QState) (tmp : List Char)
    (hqf : queueField name = some tmp)
    (hd : tmp.takeWhile isDigitCh ≠ [])
    (hlt : (tmp.takeWhile isDigitCh).length < tmp.length)
    (hrange : digitsToNat (tmp.takeWhile isDigitCh) ≤ 2 ^ 31 - 1) :
    processName i name st = some st := by
  unfold queueField at hqf
  by_cases hor : (startsRx name || startsTx name) = true
  · rw [if_pos hor] at hqf
    rcases hdot : findIdxFrom '.' name 3 with _ | dot
    · rw [hdot] at hqf
      cases hqf
    · rw [hdot] at hqf
      have htmp : (name.drop 3).take (dot - 3) = tmp := Option.some.inj hqf
      have hstoi := stoi_digit_prefix tmp hd hrange
      simp [processName, hor, hdot, htmp, hstoi, hlt]
  · rw [if_neg hor] at hqf
    cases hqf

/-- witness for `trailing_junk_skipped`: the name `rx-2x.rx_bytes` from
the spec's Scenario 4 is silently skipped. -/
theorem trailing_junk_skipped_witness :
    processName 0 "rx-2x.rx_bytes".toList ⟨[], 0⟩ = some ⟨[], 0⟩ :=
  trailing_junk_skipped 0 "rx-2x.rx_bytes".toList ⟨[], 0⟩ "2x".toList
    (by decide) (by decide) (by decide) (by decide)

/-- a successful `projectEntry` write preserves the stats list's length
and the length of every row -/
lemma projectEntry_shape (raw : List Nat) (acc acc2 : List (List Nat))
    (e : Nat × Nat × Nat) (h : projectEntry raw acc e = some acc2) :
    acc2.length = acc.length ∧
      ∀ j : Nat, acc2[j]?.map List.length = acc[j]?.map List.length := by
  rcases hr : raw[e.1]? with _ | v <;> rcases ha : acc[e.2.1]? with _ | row <;>
    simp only [projectEntry, hr, ha] at h <;> try cases h
  split at h
  · have hset := Option.some.inj h
    subst hset
    have hlt : e.2.1 < acc.length := by
      by_contra hge
      rw [List.getElem?_eq_none (Nat.le_of_not_lt hge)] at ha
      cases ha
    refine ⟨List.length_set acc _ _, fun j => ?_⟩
    by_cases hj : e.2.1 = j
    · subst hj
      rw [List.getElem?_set_self hlt, ha]
      simp
    · rw [List.getElem?_set_ne hj]
  · cases h

/-- the projection loop preserves the stats list's length and the length
of every row -/
lemma projectLoop_shape (raw : List Nat) :
    ∀ (l : List (Nat × Nat × Nat)) (acc res : List (List Nat)),
      projectLoop raw acc l = some res →
      res.length = acc.length ∧
        ∀ j : Nat, res[j]?.map List.length = acc[j]?.map List.length := by
  intro l
  induction l with
  | nil =>
    intro acc res h
    cases h
    exact ⟨rfl, fun j => rfl⟩
  | cons e rest ih =>
    intro acc res h
    unfold projectLoop at h
    rcases hpe : projectEntry raw acc e with _ | acc2 <;> rw [hpe] at h
    · cases h
    · obtain ⟨h1, h2⟩ := projectEntry_shape raw acc acc2 e hpe
      obtain ⟨h3, h4⟩ := ih acc2 res h
      exact ⟨h3.trans h1, fun j => (h4 j).trans (h2 j)⟩

/-- a successful `get_stats` returns one 4-slot record per queue -/
lemma get_stats_shape (qmap : List (Nat × Nat × Nat)) (qcount : Nat)
    (raw : List Nat) (res : List (List Nat))
    (h : get_stats qmap qcount raw = some res) :
    res.length = qcount ∧ ∀ j : Nat, j < qcount → res[j]?.map List.length = some 4 := by
  obtain ⟨h1, h2⟩ := projectLoop_shape raw qmap _ res h
  constructor
  · simpa using h1
  · intro j hj
    rw [h2 j, List.getElem?_replicate_of_lt hj]
    rfl

/-- a slot's delta against itself is zero -/
lemma stored_delta_self (x : Nat) : storedOf (deltaVal x x) = 0 := by
  have h0 : wrapSub x x = 0 := by
    simp [wrapSub]
  rw [deltaVal, h0]
  have h1 : toSigned64 0 = 0 := by
    rw [toSigned64, if_pos (by decide : (0 : Nat) < 2 ^ 63)]
    rfl
  rw [h1]
  rfl

/-- a queue's delta row against an identical previous row is all-zero -/
lemma deltaRow_self (row : List Nat) (h : row.length = 4) :
    deltaRow row row = some zeroCounts := by
  rcases row with _ | ⟨a, _ | ⟨b, _ | ⟨c, _ | ⟨d, rest⟩⟩⟩⟩ <;> simp at h
  subst h
  simp [deltaRow, stored_delta_self, zeroCounts]

/-- the delta loop over identical current and previous stats produces
all-zero rows -/
lemma deltaRows_self (stats : List (List Nat)) :
    ∀ (n i : Nat), (∀ j, j < n → stats[i + j]?.map List.length = some 4) →
      deltaRows stats stats i n = some (List.replicate n zeroCounts) := by
  intro n
  induction n with
  | zero => intro i _; rfl
  | succ m ih =>
    intro i h
    have h0 := h 0 m.succ_pos
    rcases hrow : stats[i]? with _ | row
    · rw [Nat.add_zero, hrow] at h0
      cases h0
    · have hlen : row.length = 4 := by
        rw [Nat.add_zero, hrow] at h0
        simpa using h0
      have hrest := ih (i + 1) (fun j hj => by
        have hh := h (j + 1) (Nat.succ_lt_succ hj)
        rwa [show i + (j + 1) = i + 1 + j by omega] at hh)
      unfold deltaRows
      simp only [hrow, deltaRow_self row hlen, hrest]
      simp [List.replicate_succ]

/-- totals accumulated over all-zero delta rows stay zero -/
lemma totals_self : ∀ n : Nat,
    (List.replicate n zeroCounts).foldl accTotals zeroCounts = zeroCounts := by
  intro n
  induction n with
  | zero => rfl
  | succ m ih =>
    rw [List.replicate_succ, List.foldl_cons,
      (by decide : accTotals zeroCounts zeroCounts = zeroCounts), ih]

/-- C3.  Round-trip: when the previous sample is the projection of a raw
counter array through the queue map, recomputing the deltas against that
same projection yields all-zero per-queue deltas in every slot and
all-zero totals in every slot. -/
theorem roundtrip_zero_deltas (qmap : List (Nat × Nat × Nat)) (qcount : Nat)
    (raw : List Nat) (prevStats : List (List Nat))
    (h : get_stats qmap qcount raw = some prevStats) :
    deltasAndTotals qcount prevStats prevStats =
      some (List.replicate qcount zeroCounts, zeroCounts) := by
  obtain ⟨-, h2⟩ := get_stats_shape qmap qcount raw prevStats h
  unfold deltasAndTotals
  simp only [deltaRows_self prevStats qcount 0 (fun j hj => by simpa using h2 j hj)]
  rw [totals_self]

/-- witness for `roundtrip_zero_deltas` on a one-queue map and the raw
array `[7]`. -/
theorem roundtrip_zero_deltas_witness :
    deltasAndTotals 1 [[0, 7, 0, 0]] [[0, 7, 0, 0]] =
      some (List.replicate 1 zeroCounts, zeroCounts) :=
  roundtrip_zero_deltas [(0, 0, 1)] 1 [7] [[0, 7, 0, 0]] (by decide)

/-- C8 amended.  Each per-slot delta `int64_t d = current - previous` is
the signed 64-bit reinterpretation of (current − previous) mod 2^64,
with no clamping or wraparound correction; when current < previous and
the drop is at most 2^63, the signed delta for that tick is negative.
(For drops larger than 2^63 the signed value wraps positive — see the
counterexample.) -/
theorem signed_delta_amended (c p : Nat) (hp : p < U64) (h1 : c < p)
    (h2 : p - c ≤ 2 ^ 63) :
    deltaVal c p = toSigned64 ((((c : Int) - (p : Int)) % (U64 : Int)).toNat) ∧
    deltaVal c p < 0 := by
  refine ⟨rfl, ?_⟩
  have hU : U64 = 18446744073709551616 := by norm_num [U64]
  have h63 : (2 : Nat) ^ 63 = 9223372036854775808 := by norm_num
  have hD1 : 0 < p - c := by omega
  have hDlt : p - c < U64 := by omega
  have key : (c : Int) - (p : Int) = -((p - c : Nat) : Int) := by
    omega
  have hmod : (-(((p - c : Nat) : Int))) % (U64 : Int) =
      (U64 : Int) - ((p - c : Nat) : Int) := by
    have hshift : -(((p - c : Nat) : Int)) =
        ((U64 : Int) - ((p - c : Nat) : Int)) + (-1) * (U64 : Int) := by ring
    rw [hshift, Int.add_mul_emod_self]
    exact Int.emod_eq_of_lt (by omega) (by omega)
  have hw : wrapSub c p = U64 - (p - c) := by
    rw [wrapSub, key, hmod]
    omega
  rw [deltaVal, hw, toSigned64, if_neg (by omega)]
  have hle : U64 - (p - c) < U64 := by omega
  omega

/-- witness for `signed_delta_amended` at current = 3, previous = 5. -/
theorem signed_delta_amended_witness :
    (5 : Nat) < U64 ∧ (3 : Nat) < 5 ∧ (5 : Nat) - 3 ≤ 2 ^ 63 ∧
    (deltaVal 3 5 = toSigned64 ((((3 : Int) - (5 : Int)) % (U64 : Int)).toNat) ∧
      deltaVal 3 5 < 0) :=
  ⟨by decide, by decide, by decide,
    signed_delta_amended 3 5 (by decide) (by decide) (by decide)⟩

/-- a value below the running fold-maximum is below the seed or below
some member of the list -/
lemma lt_foldl_max (l : List Nat) :
    ∀ (a k : Nat), k < l.foldl max a → k < a ∨ ∃ x ∈ l, k < x := by
  induction l with
  | nil => intro a k h; exact Or.inl h
  | cons x t ih =>
    intro a k h
    rcases ih (max a x) k h with h' | ⟨y, hy, hky⟩
    · rcases lt_max_iff.mp h' with h'' | h''
      · exact Or.inl h''
      · exact Or.inr ⟨x, List.mem_cons_self x t, h''⟩
    · exact Or.inr ⟨y, List.mem_cons_of_mem x hy, hky⟩

/-- a lookup that returns a value is within bounds -/
lemma getElem?_some_lt {α : Type} {l : List α} {i : Nat} {x : α}
    (h : l[i]? = some x) : i < l.length := by
  by_contra hge
  rw [List.getElem?_eq_none (Nat.le_of_not_lt hge)] at h
  cases h

/-- an entry whose source index is past the end of `raw` makes the
projection of that entry fail, whatever the accumulator holds -/
lemma projectEntry_oob (raw : List Nat) (acc : List (List Nat))
    (e : Nat × Nat × Nat) (h : raw.length ≤ e.1) :
    projectEntry raw acc e = none := by
  simp only [projectEntry, List.getElem?_eq_none h]

/-- the projection loop fails whenever some entry's source index is past
the end of `raw` -/
lemma projectLoop_fail (raw : List Nat) :
    ∀ (l : List (Nat × Nat × Nat)) (acc : List (List Nat)) (e : Nat × Nat × Nat),
      e ∈ l → raw.length ≤ e.1 → projectLoop raw acc l = none := by
  intro l
  induction l with
  | nil => intro acc e he _; cases he
  | cons x t ih =>
    intro acc e he hle
    rcases List.mem_cons.mp he with rfl | hmem
    · simp only [projectLoop, projectEntry_oob raw acc e hle]
    · unfold projectLoop
      rcases hpe : projectEntry raw acc x with _ | acc2
      · simp only [hpe]
      · simp only [hpe]
        exact ih acc2 e hmem hle

/-- a successful projection step has its source index in bounds -/
lemma projectEntry_some_lt (raw : List Nat) (acc acc2 : List (List Nat))
    (e : Nat × Nat × Nat) (h : projectEntry raw acc e = some acc2) :
    e.1 < raw.length := by
  rcases hr : raw[e.1]? with _ | v
  · rw [projectEntry_oob raw acc e (List.getElem?_eq_none_iff.mp hr)] at h
    cases h
  · exact getElem?_some_lt hr

/-- a successful projection loop reads only in-bounds positions of `raw` -/
lemma projectLoop_ok (raw : List Nat) :
    ∀ (l : List (Nat × Nat × Nat)) (acc res : List (List Nat)),
      projectLoop raw acc l = some res → ∀ e ∈ l, e.1 < raw.length := by
  intro l
  induction l with
  | nil => intro acc res _ e he; cases he
  | cons x t ih =>
    intro acc res h e he
    unfold projectLoop at h
    rcases hpe : projectEntry raw acc x with _ | acc2 <;> rw [hpe] at h
    · cases h
    · rcases List.mem_cons.mp he with rfl | hmem
      · exact projectEntry_some_lt raw acc acc2 e hpe
      · exact ih acc2 res h e hmem

/-- C9.  When the fetched raw counter array is shorter than the highest
recorded source index, the tick's projection fails (the out-of-bounds
`raw[id]` access is the failure); and whenever the projection succeeds,
every recorded source index was within the bounds of `raw` — the
projection never reads an out-of-bounds raw position. -/
theorem short_raw_faults (qmap : List (Nat × Nat × Nat)) (qcount : Nat) (raw : List Nat) :
    (raw.length < maxSourceIndex qmap → get_stats qmap qcount raw = none) ∧
    (∀ res, get_stats qmap qcount raw = some res → ∀ e ∈ qmap, e.1 < raw.length) := by
  constructor
  · intro h
    unfold maxSourceIndex at h
    rcases lt_foldl_max (qmap.map (fun e => e.1)) 0 raw.length h with h0 | ⟨x, hx, hlt⟩
    · exact absurd h0 (Nat.not_lt_zero _)
    · obtain ⟨e, he, rfl⟩ := List.mem_map.mp hx
      exact projectLoop_fail raw qmap _ e he (Nat.le_of_lt hlt)
  · intro res h
    exact projectLoop_ok raw qmap _ res h

/-- witness for `short_raw_faults`: a map recording source index 5 fails
against an empty raw array, and the successful one-entry projection
reads only in-bounds positions. -/
theorem short_raw_faults_witness :
    get_stats [(5, 0, 0)] 1 [] = none ∧
    ∀ e ∈ ([(0, 0, 1)] : List (Nat × Nat × Nat)), e.1 < ([7] : List Nat).length :=
  ⟨(short_raw_faults [(5, 0, 0)] 1 []).1 (by decide),
    (short_raw_faults [(0, 0, 1)] 1 [7]).2 [[0, 7, 0, 0]] (by decide)⟩

/-- a successful scanner run appends its new entries to the initial
map, and the final `qcount` is the fold of `max ((queue + 1) mod 2^64)`
over exactly those new entries -/
lemma buildAux_qcount :
    ∀ (names : List (List Char)) (i : Nat) (st0 st : QState),
      buildAux i names st0 = some st →
      ∃ new, st.qmap = st0.qmap ++ new ∧
        st.qcount = new.foldl (fun a e => max ((e.2.1 + 1) % U64) a) st0.qcount := by
  intro names
  induction names with
  | nil =>
    intro i st0 st h
    cases h
    exact ⟨[], by simp, rfl⟩
  | cons n rest ih =>
    intro i st0 st h
    unfold buildAux at h
    rcases hpn : processName i n st0 with _ | st2 <;> rw [hpn] at h
    · cases h
    · rcases processName_shape i n st0 st2 hpn with rfl | ⟨q, off, hqm, hqc⟩
      · exact ih (i + 1) _ st h
      · obtain ⟨new2, h1, h2⟩ := ih (i + 1) st2 st h
        refine ⟨(i, q, off) :: new2, ?_, ?_⟩
        · rw [h1, hqm]
          simp
        · rw [h2, List.foldl_cons, ← hqc]

/-- pulling the `+ 1` out of a fold of `max (x + 1)` -/
lemma foldl_max_succ :
    ∀ (l : List Nat) (a : Nat),
      l.foldl (fun acc x => max (x + 1) acc) (a + 1) = (l.foldl max a) + 1 := by
  intro l
  induction l with
  | nil => intro a; rfl
  | cons x t ih =>
    intro a
    rw [List.foldl_cons, List.foldl_cons,
      show max (x + 1) (a + 1) = (max a x) + 1 by
        rw [Nat.max_comm a x]
        exact Nat.succ_max_succ x a,
      ih]

/-- C2 amended.  For every input whose matched names all carry a
nonnegative queue number (so that the `int` → `size_t` conversion does
not wrap, i.e. `queue + 1 < 2^64` for every recorded entry), the
discovered queue count is one plus the maximum queue index over the
matched entries, and zero when no name matched.  (A negative
queue-number field such as `-1` wraps and breaks the equation — see the
counterexample.) -/
theorem qcount_one_plus_max_amended (names : List (List Char)) (st : QState)
    (hb : build_queue_map names = some st)
    (hw : ∀ e ∈ st.qmap, e.2.1 + 1 < U64) :
    st.qcount = if st.qmap.isEmpty then 0
      else ((st.qmap.map (fun e => e.2.1)).foldl max 0) + 1 := by
  obtain ⟨new, h1, h2⟩ := buildAux_qcount names 0 ⟨[], 0⟩ st hb
  simp only [QState.qmap] at h1
  rw [List.nil_append] at h1
  subst h1
  have hcong : ∀ (l : List (Nat × Nat × Nat)) (a : Nat),
      (∀ e ∈ l, e.2.1 + 1 < U64) →
      l.foldl (fun a e => max ((e.2.1 + 1) % U64) a) a =
        l.foldl (fun a e => max (e.2.1 + 1) a) a := by
    intro l
    induction l with
    | nil => intro a _; rfl
    | cons x t ihc =>
      intro a hl
      rw [List.foldl_cons, List.foldl_cons,
        Nat.mod_eq_of_lt (hl x (List.mem_cons_self x t))]
      exact ihc _ (fun e he => hl e (List.mem_cons_of_mem x he))
  rw [hcong st.qmap 0 hw] at h2
  rcases hq : st.qmap with _ | ⟨e0, tql⟩
  · rw [hq] at h2
    simp [h2]
  · rw [hq] at h2
    rw [List.foldl_cons, Nat.max_zero] at h2
    have hmap : tql.foldl (fun a e => max (e.2.1 + 1) a) (e0.2.1 + 1) =
        ((tql.map (fun e => e.2.1)).foldl (fun acc x => max (x + 1) acc) (e0.2.1 + 1)) := by
      rw [List.foldl_map]
    rw [hmap, foldl_max_succ] at h2
    simp only [List.isEmpty_cons, List.map_cons, List.foldl_cons, Nat.zero_max]
    rw [if_neg (by simp)]
    exact h2

/-- witness for `qcount_one_plus_max_amended`: one matched name with
queue number 0 gives `qcount = 1 = 0 + 1`. -/
theorem qcount_one_plus_max_amended_witness :
    (∀ e ∈ (⟨[(0, 0, 1)], 1⟩ : QState).qmap, e.2.1 + 1 < U64) ∧
    (⟨[(0, 0, 1)], 1⟩ : QState).qcount =
      if (⟨[(0, 0, 1)], 1⟩ : QState).qmap.isEmpty then 0
      else (((⟨[(0, 0, 1)], 1⟩ : QState).qmap.map (fun e => e.2.1)).foldl max 0) + 1 :=
  ⟨by decide,
    qcount_one_plus_max_amended ["rx-0.rx_packets".toList] ⟨[(0, 0, 1)], 1⟩
      (by decide) (by decide)⟩

/-- the scanner records source indices in strictly increasing order, so
the queue map's entries (in `std::map` key order) are sorted by source
index -/
lemma buildAux_sorted :
    ∀ (names : List (List Char)) (i : Nat) (st0 st : QState),
      buildAux i names st0 = some st →
      (∀ e ∈ st0.qmap, e.1 < i) →
      List.Pairwise (fun a b : Nat × Nat × Nat => a.1 < b.1) st0.qmap →
      (∀ e ∈ st.qmap, e.1 < i + names.length) ∧
        List.Pairwise (fun a b : Nat × Nat × Nat => a.1 < b.1) st.qmap := by
  intro names
  induction names with
  | nil =>
    intro i st0 st h hk hp
    cases h
    exact ⟨fun e he => Nat.lt_of_lt_of_le (hk e he) (by omega), hp⟩
  | cons n rest ih =>
    intro i st0 st h hk hp
    unfold buildAux at h
    rcases hpn : processName i n st0 with _ | st2 <;> rw [hpn] at h
    · cases h
    · have hstep : (∀ e ∈ st2.qmap, e.1 < i + 1) ∧
          List.Pairwise (fun a b : Nat × Nat × Nat => a.1 < b.1) st2.qmap := by
        rcases processName_shape i n st0 st2 hpn with rfl | ⟨q, off, hqm, -⟩
        · exact ⟨fun e he => Nat.lt_succ_of_lt (hk e he), hp⟩
        · constructor
          · intro e he
            rw [hqm] at he
            rcases List.mem_append.mp he with he' | he'
            · exact Nat.lt_succ_of_lt (hk e he')
            · rcases List.mem_singleton.mp he' with rfl
              exact Nat.lt_succ_self i
          · rw [hqm, List.pairwise_append]
            refine ⟨hp, List.pairwise_singleton _ _, ?_⟩
            intro a ha b hb
            rcases List.mem_singleton.mp hb with rfl
            exact hk a ha
      have := ih (i + 1) st2 st h hstep.1 hstep.2
      exact ⟨fun e he => by
        have hb := this.1 e he
        simp only [List.length_cons]
        omega, this.2⟩

/-- the queue map built from a fresh state is sorted by source index -/
lemma build_sorted (names : List (List Char)) (st : QState)
    (hb : build_queue_map names = some st) :
    List.Pairwise (fun a b : Nat × Nat × Nat => a.1 < b.1) st.qmap :=
  (buildAux_sorted names 0 ⟨[], 0⟩ st hb
    (fun e he => absurd he (List.not_mem_nil e)) List.Pairwise.nil).2

/-- writing one entry does not change the value seen at a different
(queue, slot) target -/
lemma lookup2_projectEntry_ne (raw : List Nat) (acc acc2 : List (List Nat))
    (e : Nat × Nat × Nat) (q s : Nat)
    (hpe : projectEntry raw acc e = some acc2)
    (hne : ¬(e.2.1 = q ∧ e.2.2 = s)) :
    lookup2 acc2 q s = lookup2 acc q s := by
  rcases hr : raw[e.1]? with _ | v <;> rcases ha : acc[e.2.1]? with _ | row <;>
    simp only [projectEntry, hr, ha] at hpe <;> try cases hpe
  split at hpe
  · have hset := Option.some.inj hpe
    subst hset
    by_cases hq : e.2.1 = q
    · subst hq
      have hs : e.2.2 ≠ s := fun hs => hne ⟨rfl, hs⟩
      have hlt2 : e.2.1 < acc.length := getElem?_some_lt ha
      simp only [lookup2, List.getElem?_set_self hlt2, ha]
      rw [List.getElem?_set_ne hs]
    · simp only [lookup2, List.getElem?_set_ne hq]
  · cases hpe

/-- writing one entry makes the value seen at its own (queue, slot)
target the raw value it reads -/
lemma lookup2_projectEntry_self (raw : List Nat) (acc acc2 : List (List Nat))
    (e : Nat × Nat × Nat) (hpe : projectEntry raw acc e = some acc2) :
    lookup2 acc2 e.2.1 e.2.2 = raw[e.1]? := by
  rcases hr : raw[e.1]? with _ | v <;> rcases ha : acc[e.2.1]? with _ | row <;>
    simp only [projectEntry, hr, ha] at hpe <;> try cases hpe
  split at hpe
  case isTrue hlt =>
    have hset := Option.some.inj hpe
    subst hset
    have hlt2 : e.2.1 < acc.length := getElem?_some_lt ha
    simp only [lookup2, List.getElem?_set_self hlt2]
    rw [List.getElem?_set_self hlt]
  case isFalse => cases hpe

/-- running the projection loop over entries that never target
(queue `q`, slot `s`) leaves the value seen there unchanged -/
lemma lookup2_projectLoop_untouched (raw : List Nat) :
    ∀ (l : List (Nat × Nat × Nat)) (acc res : List (List Nat)) (q s : Nat),
      projectLoop raw acc l = some res →
      (∀ e ∈ l, ¬(e.2.1 = q ∧ e.2.2 = s)) →
      lookup2 res q s = lookup2 acc q s := by
  intro l
  induction l with
  | nil =>
    intro acc res q s h _
    cases h
    rfl
  | cons x t ih =>
    intro acc res q s h hqs
    unfold projectLoop at h
    rcases hpe : projectEntry raw acc x with _ | acc2 <;> rw [hpe] at h
    · cases h
    · rw [ih acc2 res q s h (fun e he => hqs e (List.mem_cons_of_mem x he))]
      exact lookup2_projectEntry_ne raw acc acc2 x q s hpe
        (hqs x (List.mem_cons_self x t))

/-- splitting the projection loop across a list append -/
lemma projectLoop_append (raw : List Nat) :
    ∀ (l1 l2 : List (Nat × Nat × Nat)) (acc res : List (List Nat)),
      projectLoop raw acc (l1 ++ l2) = some res →
      ∃ mid, projectLoop raw acc l1 = some mid ∧ projectLoop raw mid l2 = some res := by
  intro l1
  induction l1 with
  | nil =>
    intro l2 acc res h
    exact ⟨acc, rfl, h⟩
  | cons x t ih =>
    intro l2 acc res h
    rw [List.cons_append] at h
    unfold projectLoop at h
    rcases hpe : projectEntry raw acc x with _ | acc2 <;> rw [hpe] at h
    · cases h
    · obtain ⟨mid, hm1, hm2⟩ := ih l2 acc2 res h
      refine ⟨mid, ?_, hm2⟩
      unfold projectLoop
      rw [hpe]
      exact hm1

/-- C10.  When two distinct counter names at different source positions
`i1 < i2` map to the same (queue, slot) pair, the builder signals no
error: both entries are retained in the queue map (they are hypotheses
witnessed by membership below).  On every tick, the value projected into
that slot is the one read from the entry that appears latest in list
order — with the map sorted by source position, that is the entry with
the largest source index `i2` (last write wins). -/
theorem last_write_wins (names : List (List Char)) (raw : List Nat) (st : QState)
    (res : List (List Nat)) (q s i1 i2 : Nat)
    (hb : build_queue_map names = some st)
    (h1 : (i1, q, s) ∈ st.qmap) (h2 : (i2, q, s) ∈ st.qmap) (h12 : i1 < i2)
    (hlast : ∀ e ∈ st.qmap, e.2 = (q, s) → e.1 ≤ i2)
    (hres : get_stats st.qmap st.qcount raw = some res) :
    lookup2 res q s = raw[i2]? := by
  have hsorted := build_sorted names st hb
  obtain ⟨l1, l2, hsplit⟩ := List.append_of_mem h2
  rw [hsplit] at hsorted
  unfold get_stats at hres
  rw [hsplit] at hres
  have hl2 : ∀ e ∈ l2, i2 < e.1 := by
    rw [List.pairwise_append] at hsorted
    have hc := hsorted.2.1
    rw [List.pairwise_cons] at hc
    exact fun e he => hc.1 e he
  have hl2ne : ∀ e ∈ l2, ¬(e.2.1 = q ∧ e.2.2 = s) := by
    intro e he hqs
    have hmem : e ∈ st.qmap := by
      rw [hsplit]
      exact List.mem_append_right _ (List.mem_cons_of_mem _ he)
    have hle := hlast e hmem (Prod.ext hqs.1 hqs.2)
    exact absurd (hl2 e he) (Nat.not_lt_of_le hle)
  obtain ⟨mid, -, hmid2⟩ := projectLoop_append raw l1 ((i2, q, s) :: l2) _ res hres
  unfold projectLoop at hmid2
  rcases hpe : projectEntry raw mid (i2, q, s) with _ | mid2 <;> rw [hpe] at hmid2
  · cases hmid2
  · rw [lookup2_projectLoop_untouched raw l2 mid2 res q s hmid2 hl2ne]
    exact lookup2_projectEntry_self raw mid mid2 (i2, q, s) hpe

/-- witness for `last_write_wins`: the names `rx-0.rx_bytes` and
`rx-0.junk_bytes` both target (queue 0, slot 3); with raw counters
`[100, 200]` the projected slot holds 200, the value at the later
source position. -/
theorem last_write_wins_witness :
    lookup2 [[0, 0, 0, 200]] 0 3 = ([100, 200] : List Nat)[1]? :=
  last_write_wins ["rx-0.rx_bytes".toList, "rx-0.junk_bytes".toList] [100, 200]
    ⟨[(0, 0, 3), (1, 0, 3)], 1⟩ [[0, 0, 0, 200]] 0 3 0 1
    (by decide) (by decide) (by decide) (by decide) (by decide) (by decide)

end EthQ
